import Mathlib

/-!
Verification of the silence-detection and audio-trimming engine
(`src/trimmer/AudioTrimmer.ts`) of the obsidian-transcribe plugin.

Shallow embedding conventions:
* JS numbers are modelled as exact rationals (`ℚ`) in the pipeline
  functions, and as reals (`ℝ`) in the waveform analyzer and the
  dB/RMS converters where logarithms and square roots occur.
* A JS number that may be `-Infinity` (a segment's `avgDb`) is modelled
  by the two-constructor type `Db`.
* JS arrays of segment objects are modelled as `List Segment`; the
  imperative loops of the source are modelled as folds over index
  ranges, and an in-place write `arr[j].isSilence = false` is modelled
  as an index-aware map over the list.  Functions of the source that
  allocate a copy of their input and mutate only the copy are modelled
  in a state-passing style: the state carries both the input array and
  the copy, and each source mutation updates the state component it
  textually targets, so that preservation of the input array is a
  provable statement.
-/

namespace Transcribe

/-- JS number that is either `-Infinity` or a finite value. -/
inductive Db (α : Type) where
  | negInf : Db α
  | fin : α → Db α
deriving DecidableEq

/-- Audio segment (interface `AudioSegment`, AudioTrimmer.ts lines 10-15).
`startTime`/`endTime` in seconds, `avgDb` the average dB of the slice. -/
structure Segment where
  startTime : ℚ
  endTime : ℚ
  isSilence : Bool
  avgDb : Db ℚ
deriving DecidableEq

instance : Inhabited Segment :=
  ⟨{ startTime := 0, endTime := 0, isSilence := false, avgDb := Db.negInf }⟩

/-- Waveform data (interface `WaveformData`, lines 20-26). -/
structure WaveformData where
  segments : List Segment
  duration : ℚ
  maxDb : ℚ
  minDb : ℚ
  resolution : ℚ
deriving DecidableEq

/-- Trim configuration (interface `TrimConfig`, lines 31-35). -/
structure TrimConfig where
  thresholdDb : ℚ
  minSilenceDuration : ℚ
  silenceMargin : ℚ
deriving DecidableEq

/-- Default trimming configuration (lines 52-56). -/
def DEFAULT_TRIM_CONFIG : TrimConfig :=
  { thresholdDb := -40, minSilenceDuration := 0.6, silenceMargin := 0.2 }

/-- JS comparison `avgDb <= thresholdDb` where `avgDb` may be `-Infinity`
and the threshold is a finite number. -/
def Db.leNum (d : Db ℚ) (t : ℚ) : Bool :=
  match d with
  | Db.negInf => true
  | Db.fin a => a ≤ t

/-- JS test `avgDb === -Infinity`. -/
def Db.isNegInf {α : Type} (d : Db α) : Bool :=
  match d with
  | Db.negInf => true
  | Db.fin _ => false

/-- Extract the finite value, if any (used to model
`filter(db => db !== -Infinity)`). -/
def Db.toFin {α : Type} : Db α → Option α
  | Db.negInf => none
  | Db.fin a => some a

/-- Map over a list together with the element's index, starting at
index `k`.  Models an in-place update of selected array slots. -/
def listMapIdxFrom {α : Type} (f : ℕ → α → α) : ℕ → List α → List α
  | _, [] => []
  | k, x :: xs => f k x :: listMapIdxFrom f (k + 1) xs

/-- Overwrite the `isSilence` flag of a segment. -/
def setFlag (s : Segment) (b : Bool) : Segment :=
  { s with isSilence := b }

/-- The JS statement `segments[j].isSilence = false` applied to every
index `j` with `lo ≤ j < hi` (natural-number bounds). -/
def clearRange (l : List Segment) (lo hi : ℕ) : List Segment :=
  listMapIdxFrom (fun j sg => if lo ≤ j ∧ j < hi then setFlag sg false else sg) 0 l

/-- The same clearing loop with integer bounds (the margin loops compute
bounds such as `i - marginSegments` that can be negative). -/
def clearRangeZ (l : List Segment) (lo hi : ℤ) : List Segment :=
  listMapIdxFrom (fun j sg => if lo ≤ (j : ℤ) ∧ (j : ℤ) < hi then setFlag sg false else sg) 0 l

/-- Raw silence labeling of one segment (lines 180-183):
`isSilence := avgDb <= thresholdDb || avgDb === -Infinity`, all other
fields copied (the `{...s}` spread). -/
def rawLabel (thresholdDb : ℚ) (s : Segment) : Segment :=
  { startTime := s.startTime, endTime := s.endTime,
    isSilence := s.avgDb.leNum thresholdDb || s.avgDb.isNegInf,
    avgDb := s.avgDb }

/-- State of `calculateSilenceSegments`: `waveform` is the input array
`waveformData.segments` (never written), `segments` is the freshly
mapped copy that the hysteresis loop mutates, `startIndex` is the
`silenceStartIndex` variable. -/
structure SilenceState where
  waveform : List Segment
  segments : List Segment
  startIndex : Option ℕ
deriving DecidableEq

/-- One iteration of the hysteresis loop (lines 188-203). -/
def hystStep (minSilenceSegments : ℤ) (st : SilenceState) (i : ℕ) : SilenceState :=
  let isSil : Bool := decide (i < st.segments.length) && (st.segments.getD i default).isSilence
  match st.startIndex, isSil with
  | none, true => { st with startIndex := some i }
  | some s, false =>
      let silenceLength : ℤ := (i : ℤ) - (s : ℤ)
      if silenceLength < minSilenceSegments then
        { st with segments := clearRange st.segments s i, startIndex := none }
      else
        { st with startIndex := none }
  | _, _ => st

/-- State-passing form of `calculateSilenceSegments` (lines 172-206).
`resolution` is the `AudioTrimmer` field (milliseconds, default 200). -/
def calculateSilenceSegmentsST (resolution : ℚ) (waveformData : WaveformData)
    (config : TrimConfig) : SilenceState :=
  let segmentDuration : ℚ := resolution / 1000
  let minSilenceSegments : ℤ := ⌈config.minSilenceDuration / segmentDuration⌉
  let segments := waveformData.segments.map (rawLabel config.thresholdDb)
  (List.range (segments.length + 1)).foldl (hystStep minSilenceSegments)
    { waveform := waveformData.segments, segments := segments, startIndex := none }

/-- `calculateSilenceSegments` returns the mutated copy. -/
def calculateSilenceSegments (resolution : ℚ) (waveformData : WaveformData)
    (config : TrimConfig) : List Segment :=
  (calculateSilenceSegmentsST resolution waveformData config).segments

/-- State of `applyMargin`: `segments` is the input array (read at every
iteration, never written), `result` is the copy all margin writes go to. -/
structure MarginState where
  segments : List Segment
  result : List Segment
deriving DecidableEq

/-- One iteration of the margin loop (lines 220-230): if the input
segment `i` is speech, clear `isSilence` on `result` over
`[max(0, i-marginSegments), i)` and `[i+1, min(result.length, i+marginSegments+1))`. -/
def marginStep (marginSegments : ℤ) (st : MarginState) (i : ℕ) : MarginState :=
  if (st.segments.getD i default).isSilence = false then
    let r1 := clearRangeZ st.result (max 0 ((i : ℤ) - marginSegments)) (i : ℤ)
    let r2 := clearRangeZ r1 ((i : ℤ) + 1) (min (r1.length : ℤ) ((i : ℤ) + marginSegments + 1))
    { st with result := r2 }
  else st

/-- State-passing form of `applyMargin` (lines 212-233). -/
def applyMarginST (resolution : ℚ) (segments : List Segment) (marginSeconds : ℚ) : MarginState :=
  let segmentDuration : ℚ := resolution / 1000
  let marginSegments : ℤ := ⌈marginSeconds / segmentDuration⌉
  (List.range segments.length).foldl (marginStep marginSegments)
    { segments := segments,
      result := segments.map (fun s =>
        { startTime := s.startTime, endTime := s.endTime,
          isSilence := s.isSilence, avgDb := s.avgDb }) }

/-- `applyMargin` returns the mutated copy. -/
def applyMargin (resolution : ℚ) (segments : List Segment) (marginSeconds : ℚ) : List Segment :=
  (applyMarginST resolution segments marginSeconds).result

/-- `calculateTrimRanges` (lines 238-244). -/
def calculateTrimRanges (resolution : ℚ) (waveformData : WaveformData)
    (config : TrimConfig) : List Segment :=
  applyMargin resolution (calculateSilenceSegments resolution waveformData config)
    config.silenceMargin

/-- Accumulator of the statistics loop of `calculateTrimStats`
(lines 253-268): the `trimmedDuration`, `removedSegmentsCount` and
`inSilence` variables. -/
structure TrimAcc where
  trimmedDuration : ℚ
  removedSegmentsCount : ℕ
  inSilence : Bool
deriving DecidableEq

/-- One iteration of the statistics loop (lines 257-268). -/
def trimStep (acc : TrimAcc) (segment : Segment) : TrimAcc :=
  let acc :=
    if segment.isSilence = false then
      { acc with trimmedDuration := acc.trimmedDuration + (segment.endTime - segment.startTime) }
    else acc
  if segment.isSilence && !acc.inSilence then
    { acc with removedSegmentsCount := acc.removedSegmentsCount + 1, inSilence := true }
  else if segment.isSilence = false then
    { acc with inSilence := false }
  else acc

/-- Result record of `calculateTrimStats`. -/
structure TrimStats where
  trimmedDuration : ℚ
  removedDuration : ℚ
  removedPercentage : ℚ
  removedSegments : ℕ
deriving DecidableEq

/-- `calculateTrimStats` (lines 249-281). -/
def calculateTrimStats (segments : List Segment) (originalDuration : ℚ) : TrimStats :=
  let acc := segments.foldl trimStep
    { trimmedDuration := 0, removedSegmentsCount := 0, inSilence := false }
  let removedDuration := originalDuration - acc.trimmedDuration
  let removedPercentage : ℚ :=
    if 0 < originalDuration then removedDuration / originalDuration * 100 else 0
  { trimmedDuration := acc.trimmedDuration,
    removedDuration := removedDuration,
    removedPercentage := removedPercentage,
    removedSegments := acc.removedSegmentsCount }

/-- `calculateAutoThreshold` (lines 146-166).  The JS
`sort((a, b) => a - b)` sorts ascending; it is modelled by
`List.insertionSort`.  `Math.floor(length * 0.2)` is the rational floor
(for lengths in the JS safe-integer range the float product `n * 0.2`
never crosses an integer, so the two floors agree). -/
def calculateAutoThreshold (waveformData : WaveformData) : ℚ :=
  let dbValues :=
    List.insertionSort (· ≤ ·)
      ((waveformData.segments.map (fun s => s.avgDb)).filterMap Db.toFin)
  if dbValues.length = 0 then
    -40
  else
    let lowerCount : ℕ := max 1 (⌊(dbValues.length : ℚ) * (0.2 : ℚ)⌋.toNat)
    let lowerSum : ℚ := (dbValues.take lowerCount).foldl (· + ·) 0
    let lowerAvg : ℚ := lowerSum / (lowerCount : ℚ)
    let threshold : ℚ := lowerAvg + 6
    max (-60) (min (-20) threshold)

/-! ### Level converter and waveform analyzer (real-valued model)

`rmsToDb` uses `Math.log10` and the analyzer uses `Math.sqrt`, so this
part of the model lives over `ℝ`. -/

/-- `rmsToDb` (lines 61-64): `-Infinity` for `rms <= 0`, otherwise
`20 * log10 rms`. -/
noncomputable def rmsToDb (rms : ℝ) : Db ℝ :=
  if rms ≤ 0 then Db.negInf else Db.fin (20 * Real.logb 10 rms)

/-- `dbToRms` (lines 69-71): `Math.pow(10, db / 20)`. -/
noncomputable def dbToRms (db : ℝ) : ℝ :=
  (10 : ℝ) ^ (db / 20)

/-- Analyzer-side audio segment: identical to `Segment` but with a
real-valued `avgDb` (the analyzer computes genuine logarithms). -/
structure ASegment where
  startTime : ℚ
  endTime : ℚ
  isSilence : Bool
  avgDb : Db ℝ

instance : Inhabited ASegment :=
  ⟨{ startTime := 0, endTime := 0, isSilence := false, avgDb := Db.negInf }⟩

/-- Analyzer-side waveform data. -/
structure AWaveformData where
  segments : List ASegment
  duration : ℚ
  maxDb : ℝ
  minDb : ℝ
  resolution : ℚ

/-- `Math.floor((resolution / 1000) * sampleRate)` (line 95). -/
def samplesPerSegment (resolution sampleRate : ℚ) : ℤ :=
  ⌊(resolution / 1000) * sampleRate⌋

/-- Strict order on `Db` values, mirroring JS `<` on numbers that may be
`-Infinity` (nothing is below `-Infinity`). -/
def Db.Lt {α : Type} [LT α] : Db α → Db α → Prop
  | _, Db.negInf => False
  | Db.negInf, Db.fin _ => True
  | Db.fin a, Db.fin b => a < b

/-- One segment of the analyzer loop body (lines 102-123), for loop
counter `i = k * sps` over samples `channelData` at rate `sampleRate`:
window RMS, dB conversion and segment times. -/
noncomputable def segAt (channelData : List ℝ) (sampleRate : ℚ) (sps : ℕ) (k : ℕ) : ASegment :=
  let n := channelData.length
  let i := k * sps
  let e := min (i + sps) n
  let window := (channelData.drop i).take sps
  let sumSquares : ℝ := window.foldl (fun a x => a + x * x) 0
  let rms : ℝ := Real.sqrt (sumSquares / ((e - i : ℕ) : ℝ))
  { startTime := (i : ℚ) / sampleRate,
    endTime := min (((i + sps : ℕ) : ℚ) / sampleRate) ((n : ℚ) / sampleRate),
    isSilence := false,
    avgDb := rmsToDb rms }

/-- `samplesPerSegment` as used by the loop counter (a JS array index,
so a natural number; the loop only runs when it is positive). -/
def spsOf (resolution sampleRate : ℚ) : ℕ :=
  (samplesPerSegment resolution sampleRate).toNat

/-- Number of iterations of the loop `for (i = 0; i < n; i += sps)`:
`⌈n / sps⌉` when `sps > 0`.  The JS loop does not terminate when
`sps = 0` (a degenerate resolution/sample-rate combination); the model
returns zero segments there, and every theorem about non-empty input
assumes `1 ≤ sps`. -/
def numSegsOf (n sps : ℕ) : ℕ :=
  if sps = 0 then 0 else (n + sps - 1) / sps

open Classical in
/-- Running maximum of observed dB values (lines 99 and 115) with the
`-Infinity → 0` fallback of line 128. -/
noncomputable def maxDbFold (segs : List ASegment) : ℝ :=
  match segs.foldl (fun m s => if Db.Lt m s.avgDb then s.avgDb else m) Db.negInf with
  | Db.negInf => 0
  | Db.fin r => r

open Classical in
/-- Running minimum of observed finite dB values (lines 100 and 116;
`none` plays `Infinity`) with the `Infinity → -60` fallback of
line 127. -/
noncomputable def minDbFold (segs : List ASegment) : ℝ :=
  match segs.foldl (fun m s =>
      match s.avgDb, m with
      | Db.negInf, _ => m
      | Db.fin r, none => some r
      | Db.fin r, some c => if r < c then some r else m) (none : Option ℝ) with
  | none => -60
  | some r => r

/-- `analyzeWaveform` (lines 87-140) after decoding: `channelData` is
channel 0 of the decoded buffer, `duration = length / sampleRate` (the
Web Audio buffer duration). -/
noncomputable def analyzeWaveform (channelData : List ℝ) (sampleRate : ℚ)
    (resolution : ℚ) : AWaveformData :=
  let sps : ℕ := spsOf resolution sampleRate
  let segs := (List.range (numSegsOf channelData.length sps)).map
    (segAt channelData sampleRate sps)
  { segments := segs,
    duration := (channelData.length : ℚ) / sampleRate,
    maxDb := maxDbFold segs,
    minDb := minDbFold segs,
    resolution := resolution }

/-! ### Basic lemmas about the list helpers -/

theorem listMapIdxFrom_length {α : Type} (f : ℕ → α → α) (k : ℕ) (l : List α) :
    (listMapIdxFrom f k l).length = l.length := by
  induction l generalizing k with
  | nil => rfl
  | cons x xs ih => simpa [listMapIdxFrom] using ih (k + 1)

theorem getD_listMapIdxFrom {α : Type} (f : ℕ → α → α) (k j : ℕ) (l : List α) (d : α) :
    (listMapIdxFrom f k l).getD j d =
      if j < l.length then f (k + j) (l.getD j d) else d := by
  induction l generalizing k j with
  | nil => simp [listMapIdxFrom]
  | cons x xs ih =>
    cases j with
    | zero => simp [listMapIdxFrom]
    | succ j =>
      simp only [listMapIdxFrom, List.getD_cons_succ, List.length_cons, ih (k + 1) j,
        Nat.succ_lt_succ_iff]
      have harith : k + 1 + j = k + (j + 1) := by omega
      rw [harith]

theorem getD_map_lt {α β : Type} (f : α → β) (l : List α) (j : ℕ) (d : α) (d' : β)
    (h : j < l.length) : (l.map f).getD j d' = f (l.getD j d) := by
  rw [List.getD_eq_getElem _ _ (by simpa using h), List.getD_eq_getElem _ _ h,
    List.getElem_map]

theorem getD_range_map {α : Type} (f : ℕ → α) (m j : ℕ) (d : α) (h : j < m) :
    ((List.range m).map f).getD j d = f j := by
  rw [List.getD_eq_getElem _ _ (by simpa using h)]
  simp

theorem listMapIdxFrom_id {α : Type} (f : ℕ → α → α) (k : ℕ) (l : List α)
    (hf : ∀ j x, f j x = x) : listMapIdxFrom f k l = l := by
  induction l generalizing k with
  | nil => rfl
  | cons x xs ih => simp [listMapIdxFrom, hf, ih]

theorem clearRange_length (l : List Segment) (lo hi : ℕ) :
    (clearRange l lo hi).length = l.length :=
  listMapIdxFrom_length _ _ _

theorem clearRangeZ_length (l : List Segment) (lo hi : ℤ) :
    (clearRangeZ l lo hi).length = l.length :=
  listMapIdxFrom_length _ _ _

theorem getD_clearRange (l : List Segment) (lo hi j : ℕ) (d : Segment) :
    (clearRange l lo hi).getD j d =
      if j < l.length ∧ lo ≤ j ∧ j < hi then setFlag (l.getD j d) false
      else if j < l.length then l.getD j d else d := by
  rw [clearRange, getD_listMapIdxFrom]
  by_cases h1 : j < l.length <;> by_cases h2 : lo ≤ j ∧ j < hi <;>
    simp [h1, h2]

theorem getD_clearRangeZ (l : List Segment) (lo hi : ℤ) (j : ℕ) (d : Segment) :
    (clearRangeZ l lo hi).getD j d =
      if j < l.length ∧ lo ≤ (j : ℤ) ∧ (j : ℤ) < hi then setFlag (l.getD j d) false
      else if j < l.length then l.getD j d else d := by
  rw [clearRangeZ, getD_listMapIdxFrom]
  by_cases h1 : j < l.length <;> by_cases h2 : lo ≤ (j : ℤ) ∧ (j : ℤ) < hi <;>
    simp [h1, h2]

theorem clearRangeZ_empty (l : List Segment) (lo hi : ℤ) (h : hi ≤ lo) :
    clearRangeZ l lo hi = l := by
  refine listMapIdxFrom_id _ _ _ fun j x => ?_
  have : ¬(lo ≤ (j : ℤ) ∧ (j : ℤ) < hi) := by omega
  simp [this]

theorem setFlag_eta (s : Segment) (b : Bool) (h : s.isSilence = b) : setFlag s b = s := by
  cases s
  simp [setFlag] at h ⊢
  exact h.symm

theorem default_segment_isSilence : (default : Segment).isSilence = false := rfl

/-! ### Claim C9: no mutation of the input arrays -/

theorem marginStep_segments (m : ℤ) (st : MarginState) (i : ℕ) :
    (marginStep m st i).segments = st.segments := by
  unfold marginStep
  split <;> rfl

theorem marginStep_result_length (m : ℤ) (st : MarginState) (i : ℕ) :
    (marginStep m st i).result.length = st.result.length := by
  unfold marginStep
  split
  · simp [clearRangeZ_length]
  · rfl

theorem foldl_marginStep_segments (m : ℤ) (l : List ℕ) (st : MarginState) :
    (l.foldl (marginStep m) st).segments = st.segments := by
  induction l generalizing st with
  | nil => rfl
  | cons i l ih => simp [List.foldl_cons, ih, marginStep_segments]

theorem foldl_marginStep_result_length (m : ℤ) (l : List ℕ) (st : MarginState) :
    (l.foldl (marginStep m) st).result.length = st.result.length := by
  induction l generalizing st with
  | nil => rfl
  | cons i l ih => simp [List.foldl_cons, ih, marginStep_result_length]

theorem hystStep_waveform (mss : ℤ) (st : SilenceState) (i : ℕ) :
    (hystStep mss st i).waveform = st.waveform := by
  unfold hystStep
  dsimp only
  split
  · rfl
  · split <;> rfl
  · rfl

theorem hystStep_length (mss : ℤ) (st : SilenceState) (i : ℕ) :
    (hystStep mss st i).segments.length = st.segments.length := by
  unfold hystStep
  dsimp only
  split
  · rfl
  · split
    · simp [clearRange_length]
    · rfl
  · rfl

theorem foldl_hystStep_waveform (mss : ℤ) (l : List ℕ) (st : SilenceState) :
    (l.foldl (hystStep mss) st).waveform = st.waveform := by
  induction l generalizing st with
  | nil => rfl
  | cons i l ih => simp [List.foldl_cons, ih, hystStep_waveform]

theorem foldl_hystStep_length (mss : ℤ) (l : List ℕ) (st : SilenceState) :
    (l.foldl (hystStep mss) st).segments.length = st.segments.length := by
  induction l generalizing st with
  | nil => rfl
  | cons i l ih => simp [List.foldl_cons, ih, hystStep_length]

/-- Claim C9: `calculateSilenceSegments` and `applyMargin` never mutate
their input.  In the state-passing model, in which every source-level
write targets the state component it textually names, the input-array
component of the final state is exactly the input (both functions write
only to the freshly mapped copy), and the returned copy has one
(copied) element per input element.  Reference-level freshness of the
copy is a heap notion outside this value-level model. -/
theorem claim_C9_no_input_mutation (resolution : ℚ) (w : WaveformData)
    (config : TrimConfig) (segments : List Segment) (marginSeconds : ℚ) :
    (calculateSilenceSegmentsST resolution w config).waveform = w.segments ∧
    (applyMarginST resolution segments marginSeconds).segments = segments ∧
    (calculateSilenceSegments resolution w config).length = w.segments.length ∧
    (applyMargin resolution segments marginSeconds).length = segments.length := by
  refine ⟨?_, ?_, ?_, ?_⟩
  · rw [calculateSilenceSegmentsST]
    exact foldl_hystStep_waveform _ _ _
  · rw [applyMarginST]
    exact foldl_marginStep_segments _ _ _
  · rw [calculateSilenceSegments, calculateSilenceSegmentsST]
    rw [foldl_hystStep_length]
    simp
  · rw [applyMargin, applyMarginST]
    rw [foldl_marginStep_result_length]
    simp

/-! ### Claim C10: zero margin is the identity -/

theorem marginStep_zero (st : MarginState) (i : ℕ) : marginStep 0 st i = st := by
  unfold marginStep
  split
  · dsimp only
    rw [clearRangeZ_empty st.result _ _ (by omega)]
    rw [clearRangeZ_empty st.result _ _ (by omega)]
  · rfl

theorem segment_copy_eta (s : Segment) :
    ({ startTime := s.startTime, endTime := s.endTime,
       isSilence := s.isSilence, avgDb := s.avgDb } : Segment) = s := rfl

/-- Claim C10: `applyMargin` with `marginSeconds = 0` returns a segment
list equal, field by field, to its input: `marginSegments = ceil 0 = 0`,
so both clearing loops are empty and the result is the untouched copy. -/
theorem claim_C10_applyMargin_zero_identity (resolution : ℚ) (segments : List Segment) :
    applyMargin resolution segments 0 = segments := by
  rw [applyMargin, applyMarginST]
  simp only [zero_div, Int.ceil_zero]
  have hfold : ∀ (l : List ℕ) (st : MarginState), l.foldl (marginStep 0) st = st := by
    intro l
    induction l with
    | nil => intro st; rfl
    | cons i l ih => intro st; simp [List.foldl_cons, marginStep_zero, ih]
  rw [hfold]
  simp only []
  calc (segments.map fun s =>
        ({ startTime := s.startTime, endTime := s.endTime,
           isSilence := s.isSilence, avgDb := s.avgDb } : Segment))
      = segments.map id := by
        apply List.map_congr_left
        intro s _
        rfl
    _ = segments := List.map_id segments

/-! ### Claim C1: margin expansion never compounds -/

theorem setFlag_isSilence (s : Segment) (b : Bool) : (setFlag s b).isSilence = b := rfl

theorem setFlag_setFlag (s : Segment) (b c : Bool) :
    setFlag (setFlag s b) c = setFlag s c := rfl

theorem setFlag_self (s : Segment) : setFlag s s.isSilence = s := rfl

theorem copy_map_eq (l : List Segment) :
    (l.map fun s =>
      ({ startTime := s.startTime, endTime := s.endTime,
         isSilence := s.isSilence, avgDb := s.avgDb } : Segment)) = l := by
  calc (l.map fun s =>
        ({ startTime := s.startTime, endTime := s.endTime,
           isSilence := s.isSilence, avgDb := s.avgDb } : Segment))
      = l.map id := List.map_congr_left fun s _ => rfl
    _ = l := List.map_id l

/-- Index `j` lies in one of the two clearing windows that the margin
loop body opens around a speech segment `i` (array length `n`). -/
def marginCleared (m : ℤ) (n i j : ℕ) : Prop :=
  (max 0 ((i : ℤ) - m) ≤ (j : ℤ) ∧ (j : ℤ) < (i : ℤ)) ∨
  ((i : ℤ) + 1 ≤ (j : ℤ) ∧ (j : ℤ) < min (n : ℤ) ((i : ℤ) + m + 1))

instance (m : ℤ) (n i j : ℕ) : Decidable (marginCleared m n i j) := by
  unfold marginCleared
  infer_instance

/-- Invariant of the margin loop: after the first `k` iterations, a
result slot `j` is speech exactly when the untouched input slot is
speech or some speech segment `i` already processed cleared it; all
other fields are stable. -/
theorem marginFold_spec (m : ℤ) (l : List Segment) (k : ℕ) (hk : k ≤ l.length) :
    (((List.range k).foldl (marginStep m) { segments := l, result := l }).result.length
        = l.length) ∧
    ∀ j, j < l.length →
      (((List.range k).foldl (marginStep m)
          { segments := l, result := l }).result.getD j default
        = setFlag (l.getD j default)
            ((((List.range k).foldl (marginStep m)
                { segments := l, result := l }).result.getD j default).isSilence)) ∧
      (((((List.range k).foldl (marginStep m)
            { segments := l, result := l }).result.getD j default).isSilence = false) ↔
        ((l.getD j default).isSilence = false ∨
          ∃ i, i < k ∧ (l.getD i default).isSilence = false ∧ marginCleared m l.length i j)) := by
  induction k with
  | zero =>
    refine ⟨rfl, fun j _ => ⟨(setFlag_self _).symm, ?_⟩⟩
    simp
  | succ k ih =>
    have hk' : k ≤ l.length := Nat.le_of_succ_le hk
    obtain ⟨ihlen, ihj⟩ := ih hk'
    set Fk := (List.range k).foldl (marginStep m) { segments := l, result := l } with hFk
    have hseg : Fk.segments = l := foldl_marginStep_segments m _ _
    have hstep : (List.range (k + 1)).foldl (marginStep m) { segments := l, result := l }
        = marginStep m Fk k := by
      rw [List.range_succ, List.foldl_append, List.foldl_cons, List.foldl_nil, hFk]
    rw [hstep]
    by_cases hc : (l.getD k default).isSilence = false
    · -- speech at k: both clearing windows are applied to the result copy
      have hcond : (Fk.segments.getD k default).isSilence = false := by rw [hseg]; exact hc
      unfold marginStep
      rw [if_pos hcond]
      dsimp only
      set r1 := clearRangeZ Fk.result (max 0 ((k : ℤ) - m)) (k : ℤ) with hr1
      have hr1len : r1.length = l.length := by rw [hr1, clearRangeZ_length, ihlen]
      have hout : ∀ j, j < l.length →
          (clearRangeZ r1 ((k : ℤ) + 1) (min (r1.length : ℤ) ((k : ℤ) + m + 1))).getD j default
            = if marginCleared m l.length k j then setFlag (Fk.result.getD j default) false
              else Fk.result.getD j default := by
        intro j hj
        rw [getD_clearRangeZ, hr1len, hr1]
        simp only [getD_clearRangeZ, clearRangeZ_length, ihlen]
        by_cases hfwd : (k : ℤ) + 1 ≤ (j : ℤ) ∧ (j : ℤ) < min (l.length : ℤ) ((k : ℤ) + m + 1)
        · have hcf : j < l.length ∧
              ((k : ℤ) + 1 ≤ (j : ℤ) ∧ (j : ℤ) < min (l.length : ℤ) ((k : ℤ) + m + 1)) :=
            ⟨hj, hfwd⟩
          rw [if_pos hcf,
            if_pos (show marginCleared m l.length k j from Or.inr hfwd), if_pos hj]
          split <;> rfl
        · have hcf : ¬(j < l.length ∧
              ((k : ℤ) + 1 ≤ (j : ℤ) ∧ (j : ℤ) < min (l.length : ℤ) ((k : ℤ) + m + 1))) :=
            fun h => hfwd h.2
          rw [if_neg hcf]
          by_cases hback : max 0 ((k : ℤ) - m) ≤ (j : ℤ) ∧ (j : ℤ) < (k : ℤ)
          · have hcb : j < l.length ∧
                (max 0 ((k : ℤ) - m) ≤ (j : ℤ) ∧ (j : ℤ) < (k : ℤ)) := ⟨hj, hback⟩
            rw [if_pos hcb,
              if_pos (show marginCleared m l.length k j from Or.inl hback), if_pos hj]
          · have hncl : ¬marginCleared m l.length k j := by
              rintro (h | h)
              · exact hback h
              · exact hfwd h
            have hcb : ¬(j < l.length ∧
                (max 0 ((k : ℤ) - m) ≤ (j : ℤ) ∧ (j : ℤ) < (k : ℤ))) :=
              fun h => hback h.2
            rw [if_neg hcb, if_pos hj, if_pos hj, if_neg hncl]
      constructor
      · rw [clearRangeZ_length, hr1len]
      intro j hj
      obtain ⟨ihfield, ihflag⟩ := ihj j hj
      rw [hout j hj]
      by_cases hcl : marginCleared m l.length k j
      · rw [if_pos hcl]
        refine ⟨?_, ?_⟩
        · rw [ihfield]
          rfl
        · exact iff_of_true rfl (Or.inr ⟨k, Nat.lt_succ_self k, hc, hcl⟩)
      · rw [if_neg hcl]
        refine ⟨ihfield, ?_⟩
        rw [ihflag]
        constructor
        · rintro (h | ⟨i, hi, hsp, hcli⟩)
          · exact Or.inl h
          · exact Or.inr ⟨i, Nat.lt_succ_of_lt hi, hsp, hcli⟩
        · rintro (h | ⟨i, hi, hsp, hcli⟩)
          · exact Or.inl h
          · rcases Nat.lt_succ_iff_lt_or_eq.mp hi with hi' | rfl
            · exact Or.inr ⟨i, hi', hsp, hcli⟩
            · exact absurd hcli hcl
    · -- silence at k: the loop body does nothing
      have hcond : ¬((Fk.segments.getD k default).isSilence = false) := by rw [hseg]; exact hc
      have hstep2 : marginStep m Fk k = Fk := by rw [marginStep, if_neg hcond]
      rw [hstep2]
      refine ⟨ihlen, fun j hj => ?_⟩
      obtain ⟨ihfield, ihflag⟩ := ihj j hj
      refine ⟨ihfield, ?_⟩
      rw [ihflag]
      constructor
      · rintro (h | ⟨i, hi, hsp, hcl⟩)
        · exact Or.inl h
        · exact Or.inr ⟨i, Nat.lt_succ_of_lt hi, hsp, hcl⟩
      · rintro (h | ⟨i, hi, hsp, hcl⟩)
        · exact Or.inl h
        · rcases Nat.lt_succ_iff_lt_or_eq.mp hi with hi' | rfl
          · exact Or.inr ⟨i, hi', hsp, hcl⟩
          · exact absurd hsp hc

theorem applyMargin_eq_fold (resolution : ℚ) (l : List Segment) (marginSeconds : ℚ) :
    applyMargin resolution l marginSeconds =
      ((List.range l.length).foldl (marginStep ⌈marginSeconds / (resolution / 1000)⌉)
        { segments := l, result := l }).result := by
  unfold applyMargin applyMarginST
  rw [copy_map_eq]

theorem marginCleared_iff_abs (m : ℤ) (n i j : ℕ) (hj : j < n) :
    marginCleared m n i j ↔ (i ≠ j ∧ |(i : ℤ) - (j : ℤ)| ≤ m) := by
  unfold marginCleared
  rw [abs_sub_le_iff]
  omega

/-- Spec scenario input: eight 0.2-second segments, all silence except
the speech segment at index 3. -/
def exampleMarginInput : List Segment :=
  [{ startTime := 0, endTime := 1/5, isSilence := true, avgDb := Db.fin (-50) },
   { startTime := 1/5, endTime := 2/5, isSilence := true, avgDb := Db.fin (-50) },
   { startTime := 2/5, endTime := 3/5, isSilence := true, avgDb := Db.fin (-50) },
   { startTime := 3/5, endTime := 4/5, isSilence := false, avgDb := Db.fin (-10) },
   { startTime := 4/5, endTime := 1, isSilence := true, avgDb := Db.fin (-50) },
   { startTime := 1, endTime := 6/5, isSilence := true, avgDb := Db.fin (-50) },
   { startTime := 6/5, endTime := 7/5, isSilence := true, avgDb := Db.fin (-50) },
   { startTime := 7/5, endTime := 8/5, isSilence := true, avgDb := Db.fin (-50) }]

/-- Claim C1: `applyMargin` never compounds.  A slot `j` of the output
is speech exactly when the corresponding input slot is speech or some
input speech segment lies within `marginSegments = ceil(marginSeconds /
segmentDuration)` positions of `j`; margins are computed from the input
array only, so they never propagate through already-expanded state.  In
particular, on the spec scenario (seven silent segments around one
speech segment, 1-segment margin) exactly the two immediate neighbors
flip to speech. -/
theorem claim_C1_applyMargin_no_compounding :
    (∀ (resolution : ℚ) (segments : List Segment) (marginSeconds : ℚ), 0 < resolution →
      ∀ j, j < segments.length →
        ((((applyMargin resolution segments marginSeconds).getD j default).isSilence = false) ↔
          ((segments.getD j default).isSilence = false ∨
            ∃ i, i < segments.length ∧ (segments.getD i default).isSilence = false ∧
              |(i : ℤ) - (j : ℤ)| ≤ ⌈marginSeconds / (resolution / 1000)⌉))) ∧
    (applyMargin 200 exampleMarginInput (0.2 : ℚ)).map Segment.isSilence
      = [true, true, false, false, false, true, true, true] := by
  constructor
  · intro resolution segments marginSeconds _hres j hj
    rw [applyMargin_eq_fold]
    obtain ⟨-, hspec⟩ :=
      marginFold_spec ⌈marginSeconds / (resolution / 1000)⌉ segments segments.length le_rfl
    obtain ⟨-, hflag⟩ := hspec j hj
    rw [hflag]
    constructor
    · rintro (h | ⟨i, hi, hsp, hcl⟩)
      · exact Or.inl h
      · exact Or.inr ⟨i, hi, hsp,
          ((marginCleared_iff_abs _ segments.length i j hj).mp hcl).2⟩
    · rintro (h | ⟨i, hi, hsp, habs⟩)
      · exact Or.inl h
      · by_cases hij : i = j
        · subst hij
          exact Or.inl hsp
        · exact Or.inr ⟨i, hi, hsp,
            (marginCleared_iff_abs _ segments.length i j hj).mpr ⟨hij, habs⟩⟩
  · have hm : ⌈(0.2 : ℚ) / (200 / 1000)⌉ = (1 : ℤ) := by norm_num
    rw [applyMargin_eq_fold, hm]
    decide

/-- Witness for C1 at the spec scenario: the hypothesis `0 < 200` holds
and the characterization applies to the example input. -/
theorem claim_C1_witness :
    (0 : ℚ) < 200 ∧
    (∀ j, j < exampleMarginInput.length →
      ((((applyMargin 200 exampleMarginInput (0.2 : ℚ)).getD j default).isSilence = false) ↔
        ((exampleMarginInput.getD j default).isSilence = false ∨
          ∃ i, i < exampleMarginInput.length ∧
            (exampleMarginInput.getD i default).isSilence = false ∧
              |(i : ℤ) - (j : ℤ)| ≤ ⌈(0.2 : ℚ) / (200 / 1000)⌉))) :=
  ⟨by norm_num,
    claim_C1_applyMargin_no_compounding.1 200 exampleMarginInput (0.2 : ℚ) (by norm_num)⟩

/-! ### Claims C4 and C8: trim statistics -/

/-- Number of silence-run starts: indices `i` that are silence and whose
predecessor is absent or speech.  Every maximal contiguous silence run
contains exactly one such index, so this counts the maximal runs. -/
def runStartCount (l : List Segment) : ℕ :=
  (List.range l.length).countP fun i =>
    decide ((l.getD i default).isSilence = true ∧
      (i = 0 ∨ (l.getD (i - 1) default).isSilence = false))

/-- Total duration of the segments kept (not marked silence). -/
def keptDuration (l : List Segment) : ℚ :=
  ((l.filter fun s => !s.isSilence).map fun s => s.endTime - s.startTime).sum

/-- Silence-run starts counted with an explicit flag of the virtual
predecessor of the first element. -/
def runsFrom (prev : Bool) : List Segment → ℕ
  | [] => 0
  | s :: rest => (if s.isSilence && !prev then 1 else 0) + runsFrom s.isSilence rest

/-- Flag state of the statistics loop after a list of segments. -/
def lastFlag (prev : Bool) : List Segment → Bool
  | [] => prev
  | s :: rest => lastFlag s.isSilence rest

theorem trimStep_eq (acc : TrimAcc) (s : Segment) :
    trimStep acc s =
      { trimmedDuration :=
          acc.trimmedDuration + (if s.isSilence then 0 else s.endTime - s.startTime),
        removedSegmentsCount :=
          acc.removedSegmentsCount + (if s.isSilence && !acc.inSilence then 1 else 0),
        inSilence := s.isSilence } := by
  obtain ⟨t, c, b⟩ := acc
  unfold trimStep
  rcases hsil : s.isSilence <;> rcases b <;> simp [hsil]

theorem foldl_trimStep (l : List Segment) (acc : TrimAcc) :
    l.foldl trimStep acc =
      { trimmedDuration :=
          acc.trimmedDuration + ((l.filter fun s => !s.isSilence).map
            fun s => s.endTime - s.startTime).sum,
        removedSegmentsCount := acc.removedSegmentsCount + runsFrom acc.inSilence l,
        inSilence := lastFlag acc.inSilence l } := by
  induction l generalizing acc with
  | nil => simp [runsFrom, lastFlag]
  | cons s rest ih =>
    rw [List.foldl_cons, trimStep_eq, ih]
    rcases hsil : s.isSilence <;>
      simp [runsFrom, lastFlag, hsil, add_assoc, add_comm, add_left_comm]

theorem runsFrom_eq_countP (prev : Bool) (l : List Segment) :
    runsFrom prev l = (List.range l.length).countP fun i =>
      decide ((l.getD i default).isSilence = true ∧
        (if i = 0 then prev = false else (l.getD (i - 1) default).isSilence = false)) := by
  induction l generalizing prev with
  | nil => simp [runsFrom]
  | cons s rest ih =>
    rw [runsFrom, List.length_cons, List.range_succ_eq_map, List.countP_cons,
      List.countP_map, ih s.isSilence]
    have hcong : ∀ i ∈ List.range rest.length,
        ((fun i => decide (((s :: rest).getD i default).isSilence = true ∧
          (if i = 0 then prev = false
           else ((s :: rest).getD (i - 1) default).isSilence = false))) ∘ Nat.succ) i = true ↔
        (fun i => decide ((rest.getD i default).isSilence = true ∧
          (if i = 0 then s.isSilence = false
           else (rest.getD (i - 1) default).isSilence = false))) i = true := by
      intro i _
      cases i with
      | zero => simp
      | succ j => simp
    rw [List.countP_congr hcong]
    rcases hsil : s.isSilence <;> rcases hprev : prev <;>
      simp [hsil, hprev, Nat.add_comm]

theorem runsFrom_all_speech (prev : Bool) (l : List Segment)
    (h : ∀ s ∈ l, s.isSilence = false) : runsFrom prev l = 0 := by
  induction l generalizing prev with
  | nil => rfl
  | cons s rest ih =>
    rw [runsFrom, h s (List.mem_cons_self s rest)]
    simpa using ih false fun t ht => h t (List.mem_cons_of_mem s ht)

theorem telescope_sum (l : List Segment)
    (hchain : List.Chain' (fun a b => b.startTime = a.endTime) l) (hne : l ≠ []) :
    (l.map fun s => s.endTime - s.startTime).sum
      = (l.getLastD default).endTime - (l.headD default).startTime := by
  induction l with
  | nil => exact absurd rfl hne
  | cons a rest ih =>
    cases rest with
    | nil => simp
    | cons b rest2 =>
      have hab : b.startTime = a.endTime := (List.chain'_cons.mp hchain).1
      have htail := ih (List.chain'_cons.mp hchain).2 (List.cons_ne_nil b rest2)
      rw [List.map_cons, List.sum_cons, htail]
      have h1 : (a :: b :: rest2).getLastD default = (b :: rest2).getLastD default := by
        rw [List.getLastD_eq_getLast?, List.getLastD_eq_getLast?, List.getLast?_cons_cons]
      rw [h1]
      simp only [List.headD_cons]
      rw [hab]
      ring

theorem calculateTrimStats_eq (segments : List Segment) (originalDuration : ℚ) :
    calculateTrimStats segments originalDuration =
      { trimmedDuration := keptDuration segments,
        removedDuration := originalDuration - keptDuration segments,
        removedPercentage :=
          if 0 < originalDuration
          then (originalDuration - keptDuration segments) / originalDuration * 100 else 0,
        removedSegments := runsFrom false segments } := by
  unfold calculateTrimStats
  rw [foldl_trimStep]
  simp [keptDuration]

theorem runsFrom_false_eq_runStartCount (l : List Segment) :
    runsFrom false l = runStartCount l := by
  rw [runsFrom_eq_countP, runStartCount]
  apply List.countP_congr
  intro i _
  cases i with
  | zero => simp
  | succ j => simp

/-- Claim C4: `calculateTrimStats` returns the number of maximal
contiguous silence runs (identified by their start indices) as
`removedSegments`, the summed width of the non-silence segments as
`trimmedDuration`, and `removedDuration = originalDuration -
trimmedDuration`; when nothing is silent and the segments tile
`[0, originalDuration)` contiguously, nothing is removed. -/
theorem claim_C4_trim_stats (segments : List Segment) (originalDuration : ℚ) :
    (calculateTrimStats segments originalDuration).removedSegments = runStartCount segments ∧
    (calculateTrimStats segments originalDuration).trimmedDuration = keptDuration segments ∧
    (calculateTrimStats segments originalDuration).removedDuration
      = originalDuration - keptDuration segments ∧
    ((∀ s ∈ segments, s.isSilence = false) →
      List.Chain' (fun a b => b.startTime = a.endTime) segments →
      (segments.headD default).startTime = 0 →
      (segments.getLastD default).endTime = originalDuration →
      (calculateTrimStats segments originalDuration).removedSegments = 0 ∧
      (calculateTrimStats segments originalDuration).trimmedDuration = originalDuration) := by
  rw [calculateTrimStats_eq]
  refine ⟨runsFrom_false_eq_runStartCount segments, rfl, rfl, ?_⟩
  intro hall hchain hfirst hlast
  refine ⟨runsFrom_all_speech false segments hall, ?_⟩
  have hfilter : segments.filter (fun s => !s.isSilence) = segments := by
    apply List.filter_eq_self.mpr
    intro s hs
    rw [hall s hs]
    rfl
  rcases hemp : segments with - | ⟨a, rest⟩
  · rw [hemp] at hlast
    simpa [keptDuration] using hlast
  · rw [← hemp]
    have hne : segments ≠ [] := by rw [hemp]; exact List.cons_ne_nil a rest
    rw [keptDuration, hfilter, telescope_sum segments hchain hne, hfirst, hlast]
    ring

/-- Witness input for C4: two contiguous speech segments tiling `[0,1)`. -/
def exampleStatsInput : List Segment :=
  [{ startTime := 0, endTime := 1/2, isSilence := false, avgDb := Db.fin (-10) },
   { startTime := 1/2, endTime := 1, isSilence := false, avgDb := Db.fin (-10) }]

/-- Witness for C4 at a concrete all-speech partition of `[0,1)`. -/
theorem claim_C4_witness :
    (calculateTrimStats exampleStatsInput 1).removedSegments = runStartCount exampleStatsInput ∧
    (calculateTrimStats exampleStatsInput 1).trimmedDuration = keptDuration exampleStatsInput ∧
    (calculateTrimStats exampleStatsInput 1).removedDuration
      = 1 - keptDuration exampleStatsInput ∧
    ((calculateTrimStats exampleStatsInput 1).removedSegments = 0 ∧
      (calculateTrimStats exampleStatsInput 1).trimmedDuration = 1) := by
  obtain ⟨h1, h2, h3, h4⟩ := claim_C4_trim_stats exampleStatsInput 1
  exact ⟨h1, h2, h3,
    h4 (by decide) (by simp [exampleStatsInput, List.chain'_cons]) (by decide) (by decide)⟩

/-- Claim C8: with `originalDuration = 0` the percentage computation is
guarded (`originalDuration > 0` is false), so `removedPercentage` is the
literal 0 rather than a division by zero. -/
theorem claim_C8_zero_duration_guard (segments : List Segment) :
    (calculateTrimStats segments 0).removedPercentage = 0 := by
  rw [calculateTrimStats_eq]
  norm_num

/-! ### Claim C3: automatic threshold estimation -/

/-- The finite (non `-Infinity`) dB values of a waveform, in segment
order. -/
def finiteDbs (w : WaveformData) : List ℚ :=
  (w.segments.map fun s => s.avgDb).filterMap Db.toFin

/-- The lower-average-plus-headroom expression of the estimator: average
of the `max 1 (floor (0.2 * n))` smallest finite dB values, plus 6,
clamped to `[-60, -20]`. -/
def clampedLowerAvg (w : WaveformData) : ℚ :=
  max (-60) (min (-20)
    (((List.insertionSort (· ≤ ·) (finiteDbs w)).take
        (max 1 (⌊((finiteDbs w).length : ℚ) * (0.2 : ℚ)⌋.toNat))).foldl (· + ·) 0
      / ((max 1 (⌊((finiteDbs w).length : ℚ) * (0.2 : ℚ)⌋.toNat) : ℕ) : ℚ) + 6))

theorem calculateAutoThreshold_eq (w : WaveformData) :
    calculateAutoThreshold w = if finiteDbs w = [] then -40 else clampedLowerAvg w := by
  unfold calculateAutoThreshold clampedLowerAvg finiteDbs
  have hlen : (List.insertionSort (· ≤ ·)
      ((w.segments.map fun s => s.avgDb).filterMap Db.toFin)).length
      = ((w.segments.map fun s => s.avgDb).filterMap Db.toFin).length :=
    (List.perm_insertionSort _ _).length_eq
  by_cases hc : (w.segments.map fun s => s.avgDb).filterMap Db.toFin = []
  · rw [if_pos hc, if_pos]
    rw [hlen, hc]
    rfl
  · have hne : ¬(List.insertionSort (· ≤ ·)
        ((w.segments.map fun s => s.avgDb).filterMap Db.toFin)).length = 0 := by
      rw [hlen]
      intro h0
      exact hc (List.length_eq_zero.mp h0)
    rw [if_neg hc, if_neg hne, hlen]

/-- Spec scenario: five 200 ms segments at `[-50, -45, -20, -15, -10]`
dB. -/
def exampleThresholdInput : WaveformData :=
  { segments :=
      [{ startTime := 0, endTime := 1/5, isSilence := false, avgDb := Db.fin (-50) },
       { startTime := 1/5, endTime := 2/5, isSilence := false, avgDb := Db.fin (-45) },
       { startTime := 2/5, endTime := 3/5, isSilence := false, avgDb := Db.fin (-20) },
       { startTime := 3/5, endTime := 4/5, isSilence := false, avgDb := Db.fin (-15) },
       { startTime := 4/5, endTime := 1, isSilence := false, avgDb := Db.fin (-10) }],
    duration := 1, maxDb := -10, minDb := -50, resolution := 200 }

/-- Claim C3: the estimator always lands in `[-60, -20]`, returns the
default `-40` exactly when no finite dB value exists, otherwise clamps
the average of the lowest fifth (at least one value) plus 6 dB; on the
spec scenario it returns `-44`. -/
theorem claim_C3_auto_threshold :
    (∀ w : WaveformData,
      (-60 ≤ calculateAutoThreshold w ∧ calculateAutoThreshold w ≤ -20) ∧
      calculateAutoThreshold w = (if finiteDbs w = [] then -40 else clampedLowerAvg w)) ∧
    calculateAutoThreshold exampleThresholdInput = -44 := by
  constructor
  · intro w
    refine ⟨?_, calculateAutoThreshold_eq w⟩
    rw [calculateAutoThreshold_eq]
    by_cases hc : finiteDbs w = []
    · rw [if_pos hc]
      norm_num
    · rw [if_neg hc]
      unfold clampedLowerAvg
      constructor
      · exact le_max_left _ _
      · exact max_le (by norm_num) (min_le_left _ _)
  · rw [calculateAutoThreshold_eq]
    rw [if_neg (by decide)]
    unfold clampedLowerAvg
    have hfin : finiteDbs exampleThresholdInput = [-50, -45, -20, -15, -10] := by decide
    rw [hfin]
    have hfloor : (⌊((([-50, -45, -20, -15, -10] : List ℚ)).length : ℚ) * (0.2 : ℚ)⌋.toNat) = 1 := by
      norm_num
    rw [hfloor]
    have hsort : List.insertionSort (· ≤ ·) ([-50, -45, -20, -15, -10] : List ℚ)
        = [-50, -45, -20, -15, -10] := by decide
    rw [hsort]
    norm_num [min_def, max_def]

/-! ### Claim C2: silence classification with hysteresis

Machinery describing maximal runs of raw-silence flags. -/

/-- Silence flag of slot `j` (out-of-range slots read as speech). -/
def sflagL (l : List Segment) (j : ℕ) : Bool := (l.getD j default).isSilence

/-- Start of the flag run containing `j` (meaningful when `f j`):
largest `s ≤ j` such that `f` holds on `[s, j]` and `s` has no flagged
predecessor. -/
def runStartF (f : ℕ → Bool) : ℕ → ℕ
  | 0 => 0
  | j + 1 => if f j then runStartF f j else j + 1

/-- End of the flag run containing `i` inside `[0, n)`: first `e ≥ i`
with `e = n` or `f e = false`. -/
def runEndF (f : ℕ → Bool) (n : ℕ) (i : ℕ) : ℕ :=
  if h : i < n then (if f i then runEndF f n (i + 1) else i) else n
termination_by n - i
decreasing_by omega

/-- Maximal run of raw-silence flags `[s, e)` in an array of `n`
segments: non-empty, inside bounds, flagged throughout, and not
extendable on either side. -/
def IsMaxRun (f : ℕ → Bool) (n s e : ℕ) : Prop :=
  s < e ∧ e ≤ n ∧ (∀ j, s ≤ j → j < e → f j = true) ∧
  (s = 0 ∨ f (s - 1) = false) ∧ (e = n ∨ f e = false)

theorem runStartF_le (f : ℕ → Bool) (j : ℕ) : runStartF f j ≤ j := by
  induction j with
  | zero => exact le_rfl
  | succ j ih =>
    rw [runStartF]
    split
    · exact le_trans ih (Nat.le_succ j)
    · exact le_rfl

theorem runStartF_run (f : ℕ → Bool) (j : ℕ) :
    ∀ i, runStartF f j ≤ i → i < j → f i = true := by
  induction j with
  | zero => omega
  | succ j ih =>
    intro i hi hij
    rw [runStartF] at hi
    by_cases hfj : f j
    · rw [if_pos hfj] at hi
      rcases Nat.lt_succ_iff_lt_or_eq.mp hij with h | rfl
      · exact ih i hi h
      · exact hfj
    · rw [if_neg hfj] at hi
      omega

theorem runStartF_boundary (f : ℕ → Bool) (j : ℕ) :
    runStartF f j = 0 ∨ f (runStartF f j - 1) = false := by
  induction j with
  | zero => exact Or.inl rfl
  | succ j ih =>
    rw [runStartF]
    by_cases hfj : f j
    · rw [if_pos hfj]
      exact ih
    · rw [if_neg hfj]
      right
      simpa using Bool.eq_false_iff.mpr hfj

theorem runStartF_eq_of (f : ℕ → Bool) (s j : ℕ)
    (hbound : s = 0 ∨ f (s - 1) = false)
    (hrun : ∀ i, s ≤ i → i < j → f i = true) (hsj : s ≤ j) :
    runStartF f j = s := by
  induction j with
  | zero =>
    have hs0 : s = 0 := Nat.le_zero.mp hsj
    subst hs0
    rfl
  | succ j ih =>
    rw [runStartF]
    by_cases hs : s = j + 1
    · rw [if_neg]
      · omega
      · rcases hbound with h0 | hfalse
        · omega
        · have : s - 1 = j := by omega
          rw [this] at hfalse
          simp [hfalse]
    · have hsj' : s ≤ j := by omega
      rw [if_pos (hrun j hsj' (Nat.lt_succ_self j))]
      exact ih (fun i hi hij => hrun i hi (Nat.lt_succ_of_lt hij)) hsj'

theorem runEndF_le (f : ℕ → Bool) (n : ℕ) :
    ∀ i, runEndF f n i ≤ n := by
  have H : ∀ d i, n - i ≤ d → runEndF f n i ≤ n := by
    intro d
    induction d with
    | zero =>
      intro i hd
      rw [runEndF]
      split
      · omega
      · exact le_rfl
    | succ d ihd =>
      intro i hd
      rw [runEndF]
      split
      · split
        · exact ihd (i + 1) (by omega)
        · omega
      · exact le_rfl
  exact fun i => H (n - i) i le_rfl

theorem runEndF_ge (f : ℕ → Bool) (n : ℕ) :
    ∀ i, i ≤ n → i ≤ runEndF f n i := by
  have H : ∀ d i, n - i ≤ d → i ≤ n → i ≤ runEndF f n i := by
    intro d
    induction d with
    | zero =>
      intro i hd hin
      rw [runEndF]
      split
      · omega
      · omega
    | succ d ihd =>
      intro i hd hin
      rw [runEndF]
      split
      · split
        · have := ihd (i + 1) (by omega) (by omega)
          omega
        · exact le_rfl
      · omega
  exact fun i => H (n - i) i le_rfl

theorem runEndF_run (f : ℕ → Bool) (n : ℕ) :
    ∀ i j, i ≤ j → j < runEndF f n i → f j = true := by
  have H : ∀ d i, n - i ≤ d → ∀ j, i ≤ j → j < runEndF f n i → f j = true := by
    intro d
    induction d with
    | zero =>
      intro i hd j hij hj
      rw [runEndF] at hj
      rcases Nat.lt_or_ge i n with hin | hin
      · omega
      · rw [dif_neg (by omega)] at hj
        omega
    | succ d ihd =>
      intro i hd j hij hj
      rw [runEndF] at hj
      by_cases hin : i < n
      · rw [dif_pos hin] at hj
        by_cases hfi : f i
        · rw [if_pos hfi] at hj
          rcases Nat.eq_or_lt_of_le hij with rfl | hlt
          · exact hfi
          · exact ihd (i + 1) (by omega) j (by omega) hj
        · rw [if_neg hfi] at hj
          omega
      · rw [dif_neg hin] at hj
        omega
  exact fun i => H (n - i) i le_rfl

theorem runEndF_boundary (f : ℕ → Bool) (n : ℕ) :
    ∀ i, runEndF f n i = n ∨ f (runEndF f n i) = false := by
  have H : ∀ d i, n - i ≤ d → runEndF f n i = n ∨ f (runEndF f n i) = false := by
    intro d
    induction d with
    | zero =>
      intro i hd
      rw [runEndF]
      split
      · rename_i hin
        exact absurd hin (by omega)
      · exact Or.inl rfl
    | succ d ihd =>
      intro i hd
      rw [runEndF]
      split
      · rename_i hin
        by_cases hfi : f i
        · rw [if_pos hfi]
          exact ihd (i + 1) (by omega)
        · rw [if_neg hfi]
          right
          exact Bool.eq_false_iff.mpr hfi
      · exact Or.inl rfl
  exact fun i => H (n - i) i le_rfl

theorem runEndF_eq_of (f : ℕ → Bool) (n e : ℕ) (hen : e ≤ n)
    (hbound : e = n ∨ f e = false) :
    ∀ i, i ≤ e → (∀ k, i ≤ k → k < e → f k = true) → runEndF f n i = e := by
  have H : ∀ d i, e - i ≤ d → i ≤ e → (∀ k, i ≤ k → k < e → f k = true) →
      runEndF f n i = e := by
    intro d
    induction d with
    | zero =>
      intro i hd hie hrun
      have hieq : i = e := by omega
      subst hieq
      rw [runEndF]
      rcases Nat.lt_or_ge i n with hin | hin
      · rw [dif_pos hin]
        rcases hbound with rfl | hfalse
        · omega
        · rw [if_neg (by simp [hfalse])]
      · rw [dif_neg (by omega)]
        omega
    | succ d ihd =>
      intro i hd hie hrun
      rcases Nat.eq_or_lt_of_le hie with rfl | hlt
      · rw [runEndF]
        rcases Nat.lt_or_ge i n with hin | hin
        · rw [dif_pos hin]
          rcases hbound with rfl | hfalse
          · omega
          · rw [if_neg (by simp [hfalse])]
        · rw [dif_neg (by omega)]
          omega
      · rw [runEndF, dif_pos (by omega), if_pos (hrun i le_rfl hlt)]
        exact ihd (i + 1) (by omega) (by omega)
          (fun k hk hke => hrun k (by omega) hke)
  exact fun i => H (e - i) i le_rfl

/-- A flagged slot inside bounds lies in the maximal run delimited by
`runStartF` and `runEndF`. -/
theorem maxRun_exists (f : ℕ → Bool) (n j : ℕ) (hf : f j = true) (hj : j < n) :
    IsMaxRun f n (runStartF f j) (runEndF f n j) ∧
    runStartF f j ≤ j ∧ j < runEndF f n j := by
  have hsle : runStartF f j ≤ j := runStartF_le f j
  have hje : j < runEndF f n j := by
    have h1 : runEndF f n j = runEndF f n (j + 1) := by
      rw [runEndF, dif_pos hj, if_pos hf]
    have h2 := runEndF_ge f n (j + 1) (by omega)
    omega
  have heln : runEndF f n j ≤ n := runEndF_le f n j
  refine ⟨⟨by omega, heln, ?_, ?_, runEndF_boundary f n j⟩, hsle, hje⟩
  · intro i hi hie
    rcases Nat.lt_or_ge i j with hij | hij
    · exact runStartF_run f j i hi hij
    · exact runEndF_run f n j i hij hie
  · exact runStartF_boundary f j

/-- Conversely every maximal run containing `j` is the one delimited by
`runStartF`/`runEndF`: maximal runs through a point are unique. -/
theorem maxRun_unique (f : ℕ → Bool) (n s e j : ℕ) (h : IsMaxRun f n s e)
    (hsj : s ≤ j) (hje : j < e) :
    runStartF f j = s ∧ runEndF f n j = e := by
  obtain ⟨hse, hen, hrun, hsb, heb⟩ := h
  constructor
  · exact runStartF_eq_of f s j hsb (fun i hi hij => hrun i hi (by omega)) hsj
  · exact runEndF_eq_of f n e hen heb j (by omega)
      (fun k hk hke => hrun k (by omega) hke)

/-- Final silence flag of slot `j` according to the hysteresis rule:
raw-silence and inside a maximal raw-silence run of length at least
`minSilenceSegments`. -/
def hystKeep (f : ℕ → Bool) (n : ℕ) (mss : ℤ) (j : ℕ) : Bool :=
  f j && decide (mss ≤ (runEndF f n j : ℤ) - (runStartF f j : ℤ))

theorem sflag_out (l : List Segment) (j : ℕ) (h : l.length ≤ j) : sflagL l j = false := by
  rw [sflagL, List.getD_eq_default _ _ h]
  rfl

theorem setFlag_keep_eta (l₀ : List Segment) (mss : ℤ) (j : ℕ)
    (hf : sflagL l₀ j = false) :
    setFlag (l₀.getD j default) (hystKeep (sflagL l₀) l₀.length mss j) = l₀.getD j default := by
  have hkeep : hystKeep (sflagL l₀) l₀.length mss j = false := by
    rw [hystKeep, hf]
    rfl
  rw [hkeep]
  exact setFlag_eta _ _ hf

theorem hystKeep_out (l₀ : List Segment) (mss : ℤ) (j : ℕ) (h : l₀.length ≤ j) :
    hystKeep (sflagL l₀) l₀.length mss j = false := by
  rw [hystKeep, sflag_out l₀ j h]
  rfl

theorem hystStep_none_true (mss : ℤ) (st : SilenceState) (i : ℕ)
    (h1 : st.startIndex = none)
    (h2 : (decide (i < st.segments.length) && (st.segments.getD i default).isSilence) = true) :
    hystStep mss st i = { st with startIndex := some i } := by
  unfold hystStep
  dsimp only
  rw [h1, h2]

theorem hystStep_none_false (mss : ℤ) (st : SilenceState) (i : ℕ)
    (h1 : st.startIndex = none)
    (h2 : (decide (i < st.segments.length) && (st.segments.getD i default).isSilence) = false) :
    hystStep mss st i = st := by
  unfold hystStep
  dsimp only
  rw [h1, h2]

theorem hystStep_some_true (mss : ℤ) (st : SilenceState) (i s : ℕ)
    (h1 : st.startIndex = some s)
    (h2 : (decide (i < st.segments.length) && (st.segments.getD i default).isSilence) = true) :
    hystStep mss st i = st := by
  unfold hystStep
  dsimp only
  rw [h1, h2]

theorem hystStep_some_false (mss : ℤ) (st : SilenceState) (i s : ℕ)
    (h1 : st.startIndex = some s)
    (h2 : (decide (i < st.segments.length) && (st.segments.getD i default).isSilence) = false) :
    hystStep mss st i =
      if (i : ℤ) - (s : ℤ) < mss then
        { st with segments := clearRange st.segments s i, startIndex := none }
      else { st with startIndex := none } := by
  unfold hystStep
  dsimp only
  rw [h1, h2]

/-- Invariant of the hysteresis loop: after `k` iterations, slots below
the frontier carry their final flag `hystKeep`, slots at or above it are
still the raw labels, and an open `startIndex` marks a raw-silence run
reaching the frontier. -/
theorem hystFold_spec (l₀ w : List Segment) (mss : ℤ) (k : ℕ) (hk : k ≤ l₀.length + 1) :
    ((List.range k).foldl (hystStep mss)
        { waveform := w, segments := l₀, startIndex := none }).segments.length = l₀.length ∧
    (match ((List.range k).foldl (hystStep mss)
        { waveform := w, segments := l₀, startIndex := none }).startIndex with
     | some s => s < k ∧ k ≤ l₀.length ∧
         (∀ j, s ≤ j → j < k → sflagL l₀ j = true) ∧
         (s = 0 ∨ sflagL l₀ (s - 1) = false) ∧
         (∀ j, ((List.range k).foldl (hystStep mss)
             { waveform := w, segments := l₀, startIndex := none }).segments.getD j default =
           if j < s then setFlag (l₀.getD j default) (hystKeep (sflagL l₀) l₀.length mss j)
           else l₀.getD j default)
     | none => (k = 0 ∨ l₀.length < k ∨ sflagL l₀ (k - 1) = false) ∧
         (∀ j, ((List.range k).foldl (hystStep mss)
             { waveform := w, segments := l₀, startIndex := none }).segments.getD j default =
           if j < k then setFlag (l₀.getD j default) (hystKeep (sflagL l₀) l₀.length mss j)
           else l₀.getD j default)) := by
  induction k with
  | zero =>
    refine ⟨rfl, Or.inl rfl, fun j => ?_⟩
    rw [if_neg (Nat.not_lt_zero j)]
    rfl
  | succ k ih =>
    have hk' : k ≤ l₀.length := by omega
    obtain ⟨ihlen, ihinv⟩ := ih (by omega)
    set St := (List.range k).foldl (hystStep mss)
      { waveform := w, segments := l₀, startIndex := none } with hSt
    have hstep : (List.range (k + 1)).foldl (hystStep mss)
        { waveform := w, segments := l₀, startIndex := none } = hystStep mss St k := by
      rw [List.range_succ, List.foldl_append, List.foldl_cons, List.foldl_nil, hSt]
    rw [hstep]
    rcases hsi : St.startIndex with - | s
    · rw [hsi] at ihinv
      obtain ⟨hcond, heq⟩ := ihinv
      have hread : (St.segments.getD k default).isSilence = sflagL l₀ k := by
        rw [heq k, if_neg (lt_irrefl k)]
        rfl
      by_cases hfk : k < l₀.length ∧ sflagL l₀ k = true
      · have h2 : (decide (k < St.segments.length)
            && (St.segments.getD k default).isSilence) = true := by
          rw [ihlen, hread, decide_eq_true hfk.1, hfk.2]
          rfl
        rw [hystStep_none_true mss St k hsi h2]
        dsimp only
        refine ⟨ihlen, Nat.lt_succ_self k, by omega, ?_, ?_, heq⟩
        · intro j hj hjk
          have hjeq : j = k := by omega
          subst hjeq
          exact hfk.2
        · rcases hcond with h | h | h
          · exact Or.inl h
          · omega
          · exact Or.inr h
      · have hflagk : sflagL l₀ k = false := by
          by_cases hkn : k < l₀.length
          · rcases Bool.eq_false_or_eq_true (sflagL l₀ k) with h | h
            · exact absurd ⟨hkn, h⟩ hfk
            · exact h
          · exact sflag_out l₀ k (by omega)
        have h2 : (decide (k < St.segments.length)
            && (St.segments.getD k default).isSilence) = false := by
          rw [ihlen, hread, hflagk, Bool.and_false]
        rw [hystStep_none_false mss St k hsi h2, hsi]
        dsimp only
        refine ⟨ihlen, Or.inr (Or.inr (by simpa using hflagk)), ?_⟩
        intro j
        rcases Nat.lt_trichotomy j k with hj | rfl | hj
        · rw [heq j, if_pos hj, if_pos (by omega)]
        · rw [heq j, if_neg (lt_irrefl j), if_pos (Nat.lt_succ_self j),
            setFlag_keep_eta l₀ mss j hflagk]
        · rw [heq j, if_neg (by omega), if_neg (by omega)]
    · rw [hsi] at ihinv
      obtain ⟨hsk, hkn, hrun, hsb, heq⟩ := ihinv
      have hread : (St.segments.getD k default).isSilence = sflagL l₀ k := by
        rw [heq k, if_neg (by omega)]
        rfl
      by_cases hfk : k < l₀.length ∧ sflagL l₀ k = true
      · have h2 : (decide (k < St.segments.length)
            && (St.segments.getD k default).isSilence) = true := by
          rw [ihlen, hread, decide_eq_true hfk.1, hfk.2]
          rfl
        rw [hystStep_some_true mss St k s hsi h2, hsi]
        dsimp only
        refine ⟨ihlen, by omega, by omega, ?_, hsb, heq⟩
        intro j hj hjk
        rcases Nat.lt_trichotomy j k with h | rfl | h
        · exact hrun j hj h
        · exact hfk.2
        · omega
      · have hflagk : k = l₀.length ∨ sflagL l₀ k = false := by
          by_cases hkn' : k < l₀.length
          · rcases Bool.eq_false_or_eq_true (sflagL l₀ k) with h | h
            · exact absurd ⟨hkn', h⟩ hfk
            · exact Or.inr h
          · exact Or.inl (by omega)
        have h2 : (decide (k < St.segments.length)
            && (St.segments.getD k default).isSilence) = false := by
          rw [ihlen, hread]
          rcases hflagk with h | h
          · rw [decide_eq_false (by omega), Bool.false_and]
          · rw [h, Bool.and_false]
        rw [hystStep_some_false mss St k s hsi h2]
        have hmax : IsMaxRun (sflagL l₀) l₀.length s k :=
          ⟨hsk, hkn, hrun, hsb, hflagk⟩
        have hkeep_run : ∀ j, s ≤ j → j < k →
            hystKeep (sflagL l₀) l₀.length mss j
              = decide (mss ≤ (k : ℤ) - (s : ℤ)) := by
          intro j hj hjk
          obtain ⟨hrs, hre⟩ := maxRun_unique (sflagL l₀) l₀.length s k j hmax hj hjk
          rw [hystKeep, hrun j hj hjk, hrs, hre]
          rfl
        have hflagk_succ : k + 1 = 0 ∨ l₀.length < k + 1 ∨ sflagL l₀ (k + 1 - 1) = false := by
          rcases hflagk with h | h
          · omega
          · exact Or.inr (Or.inr (by simpa using h))
        have hatk : l₀.getD k default
            = setFlag (l₀.getD k default) (hystKeep (sflagL l₀) l₀.length mss k) := by
          rcases hflagk with h | h
          · subst h
            rw [setFlag_keep_eta l₀ mss l₀.length (sflag_out l₀ l₀.length le_rfl)]
          · rw [setFlag_keep_eta l₀ mss k h]
        split
        · -- short run: cleared back to speech
          rename_i hlt
          dsimp only
          refine ⟨by simpa [clearRange_length] using ihlen, hflagk_succ, ?_⟩
          intro j
          rw [getD_clearRange, ihlen]
          by_cases hjk : j < k
          · by_cases hjs : j < s
            · rw [if_neg (fun h => absurd h.2.1 (by omega)), if_pos (by omega),
                heq j, if_pos hjs, if_pos (by omega)]
            · have hsj : s ≤ j := by omega
              rw [if_pos ⟨by omega, hsj, hjk⟩, heq j, if_neg (by omega),
                if_pos (by omega), hkeep_run j hsj hjk,
                decide_eq_false (by omega : ¬(mss ≤ (k : ℤ) - (s : ℤ)))]
          · by_cases hjn : j < l₀.length
            · rw [if_neg (fun h => absurd h.2.2 (by omega)), if_pos hjn,
                heq j, if_neg (by omega)]
              by_cases hjsucc : j < k + 1
              · have hjeqk : j = k := by omega
                subst hjeqk
                rw [if_pos hjsucc]
                exact hatk
              · rw [if_neg hjsucc]
            · rw [if_neg (fun h => absurd h.1 (by omega)), if_neg hjn]
              by_cases hjsucc : j < k + 1
              · rw [if_pos hjsucc, List.getD_eq_default l₀ default (by omega),
                  hystKeep_out l₀ mss j (by omega)]
                rfl
              · rw [if_neg hjsucc, List.getD_eq_default l₀ default (by omega)]
        · -- long run: kept as silence, nothing cleared
          rename_i hge
          dsimp only
          refine ⟨ihlen, hflagk_succ, ?_⟩
          intro j
          by_cases hjk : j < k
          · by_cases hjs : j < s
            · rw [heq j, if_pos hjs, if_pos (by omega)]
            · have hsj : s ≤ j := by omega
              rw [heq j, if_neg (by omega), if_pos (by omega), hkeep_run j hsj hjk,
                decide_eq_true (by omega : mss ≤ (k : ℤ) - (s : ℤ))]
              exact (setFlag_eta _ _ (hrun j hsj hjk)).symm
          · by_cases hjsucc : j < k + 1
            · have hjeqk : j = k := by omega
              subst hjeqk
              rw [heq j, if_neg (by omega), if_pos hjsucc]
              exact hatk
            · rw [heq j, if_neg (by omega), if_neg hjsucc]


/-- Raw silence flag of slot `i` of a segment array, before hysteresis:
`avgDb <= thresholdDb || avgDb === -Infinity`. -/
def rawFlag (segs : List Segment) (t : ℚ) (i : ℕ) : Bool :=
  (rawLabel t (segs.getD i default)).isSilence

theorem calculateSilenceSegments_eq_fold (resolution : ℚ) (w : WaveformData)
    (config : TrimConfig) :
    calculateSilenceSegments resolution w config =
      ((List.range ((w.segments.map (rawLabel config.thresholdDb)).length + 1)).foldl
        (hystStep ⌈config.minSilenceDuration / (resolution / 1000)⌉)
        { waveform := w.segments,
          segments := w.segments.map (rawLabel config.thresholdDb),
          startIndex := none }).segments := rfl

theorem calculateSilenceSegments_getD (resolution : ℚ) (w : WaveformData)
    (config : TrimConfig) (j : ℕ) (hj : j < w.segments.length) :
    (calculateSilenceSegments resolution w config).getD j default
      = setFlag ((w.segments.map (rawLabel config.thresholdDb)).getD j default)
          (hystKeep (sflagL (w.segments.map (rawLabel config.thresholdDb)))
            (w.segments.map (rawLabel config.thresholdDb)).length
            ⌈config.minSilenceDuration / (resolution / 1000)⌉ j) := by
  obtain ⟨hlen, hinv⟩ := hystFold_spec (w.segments.map (rawLabel config.thresholdDb))
    w.segments ⌈config.minSilenceDuration / (resolution / 1000)⌉
    ((w.segments.map (rawLabel config.thresholdDb)).length + 1) le_rfl
  rcases hfi : ((List.range ((w.segments.map (rawLabel config.thresholdDb)).length + 1)).foldl
      (hystStep ⌈config.minSilenceDuration / (resolution / 1000)⌉)
      { waveform := w.segments,
        segments := w.segments.map (rawLabel config.thresholdDb),
        startIndex := none }).startIndex with - | s
  · rw [hfi] at hinv
    obtain ⟨-, heqf⟩ := hinv
    rw [calculateSilenceSegments_eq_fold, heqf j,
      if_pos (by rw [List.length_map]; omega)]
  · rw [hfi] at hinv
    exact absurd hinv.2.1 (by omega)

theorem IsMaxRun_congr_mp (f g : ℕ → Bool) (n s e : ℕ)
    (hagree : ∀ i, i < n → f i = g i) (h : IsMaxRun f n s e) : IsMaxRun g n s e := by
  obtain ⟨hse, hen, hrun, hsb, heb⟩ := h
  refine ⟨hse, hen, ?_, ?_, ?_⟩
  · intro j hj hje
    rw [← hagree j (by omega)]
    exact hrun j hj hje
  · rcases hsb with h0 | hfalse
    · exact Or.inl h0
    · right
      rw [← hagree (s - 1) (by omega)]
      exact hfalse
  · by_cases hen' : e = n
    · exact Or.inl hen'
    · rcases heb with h0 | hfalse
      · exact Or.inl h0
      · right
        rw [← hagree e (by omega)]
        exact hfalse

theorem hystKeep_iff (f : ℕ → Bool) (n : ℕ) (mss : ℤ) (j : ℕ) (hj : j < n) :
    hystKeep f n mss j = true ↔
      (f j = true ∧ ∃ s e, IsMaxRun f n s e ∧ s ≤ j ∧ j < e ∧
        mss ≤ (e : ℤ) - (s : ℤ)) := by
  rw [hystKeep, Bool.and_eq_true, decide_eq_true_eq]
  constructor
  · rintro ⟨hfj, hle⟩
    obtain ⟨hmax, hsj, hje⟩ := maxRun_exists f n j hfj hj
    exact ⟨hfj, runStartF f j, runEndF f n j, hmax, hsj, hje, hle⟩
  · rintro ⟨hfj, s, e, hmax, hsj, hje, hle⟩
    obtain ⟨hrs, hre⟩ := maxRun_unique f n s e j hmax hsj hje
    rw [hrs, hre]
    exact ⟨hfj, hle⟩

/-- Claim C2: after `calculateSilenceSegments`, a slot is marked silent
exactly when its raw label is silence (`avgDb <= thresholdDb` or
`avgDb = -Infinity`) and it lies in a maximal run of raw-silence slots
of length at least `minSilenceSegments = ceil(minSilenceDuration /
segmentDuration)`; the tie-break is strict `<`, so a run of exactly
that length stays silent, and every shorter run is reverted. -/
theorem claim_C2_silence_hysteresis (resolution : ℚ) (w : WaveformData)
    (config : TrimConfig) (hres : 0 < resolution) (j : ℕ)
    (hj : j < w.segments.length) :
    ((calculateSilenceSegments resolution w config).getD j default).isSilence = true ↔
      (rawFlag w.segments config.thresholdDb j = true ∧
        ∃ s e, IsMaxRun (rawFlag w.segments config.thresholdDb) w.segments.length s e ∧
          s ≤ j ∧ j < e ∧
          ⌈config.minSilenceDuration / (resolution / 1000)⌉ ≤ (e : ℤ) - (s : ℤ)) := by
  clear hres
  have hagree : ∀ i, i < w.segments.length →
      sflagL (w.segments.map (rawLabel config.thresholdDb)) i
        = rawFlag w.segments config.thresholdDb i := by
    intro i hi
    rw [sflagL, getD_map_lt _ _ _ default _ hi]
    rfl
  rw [calculateSilenceSegments_getD resolution w config j hj, setFlag_isSilence,
    hystKeep_iff _ _ _ j (by rw [List.length_map]; exact hj), List.length_map,
    hagree j hj]
  constructor
  · rintro ⟨hfj, s, e, hmax, hsj, hje, hle⟩
    exact ⟨hfj, s, e, IsMaxRun_congr_mp _ _ _ _ _ hagree hmax, hsj, hje, hle⟩
  · rintro ⟨hfj, s, e, hmax, hsj, hje, hle⟩
    exact ⟨hfj, s, e,
      IsMaxRun_congr_mp _ _ _ _ _ (fun i hi => (hagree i hi).symm) hmax, hsj, hje, hle⟩

/-- Witness for C2 at the 5-segment scenario waveform with the default
configuration (`minSilenceSegments = 3` at 200 ms resolution). -/
theorem claim_C2_witness :
    (0 : ℚ) < 200 ∧ 0 < exampleThresholdInput.segments.length ∧
    (((calculateSilenceSegments 200 exampleThresholdInput
          DEFAULT_TRIM_CONFIG).getD 0 default).isSilence = true ↔
      (rawFlag exampleThresholdInput.segments DEFAULT_TRIM_CONFIG.thresholdDb 0 = true ∧
        ∃ s e, IsMaxRun (rawFlag exampleThresholdInput.segments
            DEFAULT_TRIM_CONFIG.thresholdDb)
            exampleThresholdInput.segments.length s e ∧
          s ≤ 0 ∧ 0 < e ∧
          ⌈DEFAULT_TRIM_CONFIG.minSilenceDuration / (200 / 1000 : ℚ)⌉
            ≤ (e : ℤ) - (s : ℤ))) :=
  ⟨by norm_num, by decide,
    claim_C2_silence_hysteresis 200 exampleThresholdInput DEFAULT_TRIM_CONFIG
      (by norm_num) 0 (by decide)⟩

/-! ### Claim C7: dB/RMS round trip -/

/-- Claim C7: for every finite dB value `x`, converting to RMS and back
returns exactly `x`: `dbToRms x = 10^(x/20) > 0`, so `rmsToDb` takes its
finite branch and `20 * log10 (10^(x/20)) = x`.  The `-Infinity` branch
of `rmsToDb` is never hit on outputs of `dbToRms`. -/
theorem claim_C7_round_trip : ∀ x : ℝ, rmsToDb (dbToRms x) = Db.fin x := by
  intro x
  have hpos : 0 < dbToRms x := Real.rpow_pos_of_pos (by norm_num) _
  rw [rmsToDb, if_neg (not_le.mpr hpos), dbToRms,
    Real.logb_rpow (by norm_num) (by norm_num)]
  congr 1
  ring

/-! ### Claim C6: empty and all-silence audio -/

theorem analyzeWaveform_segments (channelData : List ℝ) (sampleRate resolution : ℚ) :
    (analyzeWaveform channelData sampleRate resolution).segments
      = (List.range (numSegsOf channelData.length (spsOf resolution sampleRate))).map
          (segAt channelData sampleRate (spsOf resolution sampleRate)) := rfl

theorem numSegsOf_zero (sps : ℕ) : numSegsOf 0 sps = 0 := by
  rw [numSegsOf]
  split
  · rfl
  · rename_i h
    exact Nat.div_eq_of_lt (by omega)

theorem zero_foldl_squares (w : List ℝ) (h : ∀ x ∈ w, x = 0) (a : ℝ) :
    w.foldl (fun a x => a + x * x) a = a := by
  induction w generalizing a with
  | nil => rfl
  | cons x xs ih =>
    rw [List.foldl_cons, h x (List.mem_cons_self x xs), mul_zero, add_zero]
    exact ih (fun y hy => h y (List.mem_cons_of_mem x hy)) a

theorem segAt_avgDb_of_zero (channelData : List ℝ) (sampleRate : ℚ) (sps k : ℕ)
    (h : ∀ x ∈ channelData, x = (0 : ℝ)) :
    (segAt channelData sampleRate sps k).avgDb = Db.negInf := by
  rw [segAt]
  dsimp only
  have hwin : ∀ x ∈ (channelData.drop (k * sps)).take sps, x = (0 : ℝ) :=
    fun x hx => h x (List.drop_subset _ _ (List.take_subset _ _ hx))
  rw [zero_foldl_squares _ hwin 0, zero_div, Real.sqrt_zero, rmsToDb, if_pos le_rfl]

theorem Db.not_lt_negInf (m : Db ℝ) : ¬ Db.Lt m Db.negInf := by
  cases m <;> exact fun h => h

open Classical in
theorem maxDbFold_of_negInf (segs : List ASegment)
    (h : ∀ s ∈ segs, s.avgDb = Db.negInf) : maxDbFold segs = 0 := by
  rw [maxDbFold]
  have hfold : ∀ l : List ASegment, (∀ s ∈ l, s.avgDb = Db.negInf) →
      l.foldl (fun m s => if Db.Lt m s.avgDb then s.avgDb else m) Db.negInf
        = Db.negInf := by
    intro l hl
    induction l with
    | nil => rfl
    | cons s rest ih =>
      rw [List.foldl_cons, hl s (List.mem_cons_self s rest),
        if_neg (Db.not_lt_negInf _)]
      exact ih (fun t ht => hl t (List.mem_cons_of_mem s ht))
  rw [hfold segs h]

open Classical in
theorem minDbFold_of_negInf (segs : List ASegment)
    (h : ∀ s ∈ segs, s.avgDb = Db.negInf) : minDbFold segs = -60 := by
  rw [minDbFold]
  have hfold : ∀ l : List ASegment, (∀ s ∈ l, s.avgDb = Db.negInf) →
      l.foldl (fun m s =>
          match s.avgDb, m with
          | Db.negInf, _ => m
          | Db.fin r, none => some r
          | Db.fin r, some c => if r < c then some r else m) (none : Option ℝ)
        = none := by
    intro l hl
    induction l with
    | nil => rfl
    | cons s rest ih =>
      rw [List.foldl_cons]
      have hs := hl s (List.mem_cons_self s rest)
      rw [hs]
      exact ih (fun t ht => hl t (List.mem_cons_of_mem s ht))
  rw [hfold segs h]

/-- Claim C6: empty audio yields zero segments, duration 0 and the
`maxDb = 0` / `minDb = -60` fallbacks; all-digital-silence audio yields
`-Infinity` for every segment dB, so the same fallbacks apply. -/
theorem claim_C6_degenerate_audio :
    (∀ (sampleRate resolution : ℚ),
      (analyzeWaveform [] sampleRate resolution).segments = [] ∧
      (analyzeWaveform [] sampleRate resolution).duration = 0 ∧
      (analyzeWaveform [] sampleRate resolution).maxDb = 0 ∧
      (analyzeWaveform [] sampleRate resolution).minDb = -60) ∧
    (∀ (channelData : List ℝ) (sampleRate resolution : ℚ),
      1 ≤ spsOf resolution sampleRate →
      (∀ x ∈ channelData, x = (0 : ℝ)) →
      (∀ s ∈ (analyzeWaveform channelData sampleRate resolution).segments,
        s.avgDb = Db.negInf) ∧
      (analyzeWaveform channelData sampleRate resolution).minDb = -60 ∧
      (analyzeWaveform channelData sampleRate resolution).maxDb = 0) := by
  constructor
  · intro sampleRate resolution
    have hseg : (analyzeWaveform [] sampleRate resolution).segments = [] := by
      rw [analyzeWaveform_segments]
      rw [show ([] : List ℝ).length = 0 from rfl, numSegsOf_zero]
      rfl
    refine ⟨hseg, ?_, ?_, ?_⟩
    · have hdur : (analyzeWaveform [] sampleRate resolution).duration
          = ((0 : ℕ) : ℚ) / sampleRate := rfl
      rw [hdur]
      norm_num
    · show maxDbFold (analyzeWaveform [] sampleRate resolution).segments = 0
      rw [hseg]
      rfl
    · show minDbFold (analyzeWaveform [] sampleRate resolution).segments = -60
      rw [hseg]
      rfl
  · intro channelData sampleRate resolution _hsps hzero
    have hall : ∀ s ∈ (analyzeWaveform channelData sampleRate resolution).segments,
        s.avgDb = Db.negInf := by
      intro s hs
      rw [analyzeWaveform_segments] at hs
      obtain ⟨k, -, rfl⟩ := List.mem_map.mp hs
      exact segAt_avgDb_of_zero channelData sampleRate _ k hzero
    exact ⟨hall, minDbFold_of_negInf _ hall, maxDbFold_of_negInf _ hall⟩

/-- Witness for C6 at three zero samples (digital silence), 1 Hz,
2000 ms resolution. -/
theorem claim_C6_witness :
    1 ≤ spsOf 2000 1 ∧
    ((∀ s ∈ (analyzeWaveform [(0 : ℝ), 0, 0] 1 2000).segments,
        s.avgDb = Db.negInf) ∧
      (analyzeWaveform [(0 : ℝ), 0, 0] 1 2000).minDb = -60 ∧
      (analyzeWaveform [(0 : ℝ), 0, 0] 1 2000).maxDb = 0) :=
  ⟨by rw [spsOf, samplesPerSegment]; norm_num,
    claim_C6_degenerate_audio.2 [(0 : ℝ), 0, 0] 1 2000
      (by rw [spsOf, samplesPerSegment]; norm_num) (by simp)⟩

/-! ### Claim C5: the analyzer's segments tile the audio -/

theorem segAt_startTime (channelData : List ℝ) (sampleRate : ℚ) (sps k : ℕ) :
    (segAt channelData sampleRate sps k).startTime = ((k * sps : ℕ) : ℚ) / sampleRate := rfl

theorem segAt_endTime (channelData : List ℝ) (sampleRate : ℚ) (sps k : ℕ) :
    (segAt channelData sampleRate sps k).endTime
      = min (((k * sps + sps : ℕ) : ℚ) / sampleRate)
          ((channelData.length : ℚ) / sampleRate) := rfl

theorem analyzeWaveform_length (channelData : List ℝ) (sampleRate resolution : ℚ) :
    (analyzeWaveform channelData sampleRate resolution).segments.length
      = numSegsOf channelData.length (spsOf resolution sampleRate) := by
  rw [analyzeWaveform_segments, List.length_map, List.length_range]

theorem analyzeWaveform_getD (channelData : List ℝ) (sampleRate resolution : ℚ) (k : ℕ)
    (hk : k < numSegsOf channelData.length (spsOf resolution sampleRate)) :
    (analyzeWaveform channelData sampleRate resolution).segments.getD k default
      = segAt channelData sampleRate (spsOf resolution sampleRate) k := by
  rw [analyzeWaveform_segments]
  exact getD_range_map _ _ _ _ hk

theorem lt_numSegsOf_iff (n sps k : ℕ) (h : 1 ≤ sps) :
    k < numSegsOf n sps ↔ k * sps < n := by
  rw [numSegsOf, if_neg (by omega)]
  have h1 : k + 1 ≤ (n + sps - 1) / sps ↔ (k + 1) * sps ≤ n + sps - 1 :=
    Nat.le_div_iff_mul_le (by omega)
  have h2 : (k + 1) * sps = k * sps + sps := by ring
  rw [h2] at h1
  omega

theorem numSegsOf_mul_ge (n sps : ℕ) (h : 1 ≤ sps) : n ≤ numSegsOf n sps * sps := by
  by_contra h'
  push_neg at h'
  exact absurd ((lt_numSegsOf_iff n sps _ h).mpr h') (lt_irrefl _)

theorem getLastD_eq_getD {α : Type} [Inhabited α] (l : List α) (h : l ≠ []) :
    l.getLastD default = l.getD (l.length - 1) default := by
  rw [List.getLastD_eq_getLast? default l, List.getLast?_eq_getElem? l,
    List.getD_eq_getElem?_getD]

/-- Claim C5, amended.  Under a positive sample rate and a positive
`samplesPerSegment` (the loop does not terminate otherwise), the
segments tile `[0, duration)`: consecutive segments abut, the first
starts at 0, the last ends at `duration`, and every non-final segment
has width `samplesPerSegment / sampleRate` — the analysis resolution
rounded down to a whole number of samples.  This equals the nominal
resolution exactly when `(resolution/1000) * sampleRate` is an integer
(the claim's stronger statement fails otherwise, see the
counterexample). -/
theorem claim_C5_partition_amended (channelData : List ℝ) (sampleRate resolution : ℚ)
    (hrate : 0 < sampleRate) (hsps : 1 ≤ spsOf resolution sampleRate) :
    ((analyzeWaveform channelData sampleRate resolution).segments = [] ↔
      channelData = []) ∧
    (channelData ≠ [] →
      (((analyzeWaveform channelData sampleRate resolution).segments.getD 0
        default).startTime = 0 ∧
      ((analyzeWaveform channelData sampleRate resolution).segments.getLastD
        default).endTime = (analyzeWaveform channelData sampleRate resolution).duration)) ∧
    (∀ k, k + 1 < (analyzeWaveform channelData sampleRate resolution).segments.length →
      (((analyzeWaveform channelData sampleRate resolution).segments.getD (k + 1)
        default).startTime
        = ((analyzeWaveform channelData sampleRate resolution).segments.getD k
            default).endTime ∧
      ((analyzeWaveform channelData sampleRate resolution).segments.getD k
          default).endTime
        - ((analyzeWaveform channelData sampleRate resolution).segments.getD k
            default).startTime
        = ((spsOf resolution sampleRate : ℕ) : ℚ) / sampleRate)) ∧
    ((resolution / 1000) * sampleRate = ((spsOf resolution sampleRate : ℕ) : ℚ) →
      ((spsOf resolution sampleRate : ℕ) : ℚ) / sampleRate = resolution / 1000) := by
  have hlen : (analyzeWaveform channelData sampleRate resolution).segments.length
      = numSegsOf channelData.length (spsOf resolution sampleRate) :=
    analyzeWaveform_length channelData sampleRate resolution
  have hne : sampleRate ≠ 0 := ne_of_gt hrate
  refine ⟨?_, ?_, ?_, ?_⟩
  · -- emptiness
    constructor
    · intro hseg
      have hm0 : numSegsOf channelData.length (spsOf resolution sampleRate) = 0 := by
        rw [hseg] at hlen
        exact hlen.symm
      by_contra hcd
      have hn0 : 0 < channelData.length := List.length_pos.mpr hcd
      have : 0 < numSegsOf channelData.length (spsOf resolution sampleRate) :=
        (lt_numSegsOf_iff channelData.length (spsOf resolution sampleRate) 0 hsps).mpr
          (by simpa using hn0)
      omega
    · intro hcd
      subst hcd
      rw [analyzeWaveform_segments,
        show ([] : List ℝ).length = 0 from rfl, numSegsOf_zero]
      rfl
  · -- first and last
    intro hcd
    have hn0 : 0 < channelData.length := List.length_pos.mpr hcd
    have hm0 : 0 < numSegsOf channelData.length (spsOf resolution sampleRate) :=
      (lt_numSegsOf_iff channelData.length (spsOf resolution sampleRate) 0 hsps).mpr
        (by simpa using hn0)
    constructor
    · rw [analyzeWaveform_getD channelData sampleRate resolution 0 (by omega),
        segAt_startTime]
      norm_num
    · have hnonempty : (analyzeWaveform channelData sampleRate resolution).segments ≠ [] := by
        intro hh
        rw [hh] at hlen
        simp only [List.length_nil] at hlen
        omega
      rw [getLastD_eq_getD _ hnonempty, hlen,
        analyzeWaveform_getD channelData sampleRate resolution
          (numSegsOf channelData.length (spsOf resolution sampleRate) - 1) (by omega),
        segAt_endTime]
      have hmul : (numSegsOf channelData.length (spsOf resolution sampleRate) - 1)
            * spsOf resolution sampleRate + spsOf resolution sampleRate
          = numSegsOf channelData.length (spsOf resolution sampleRate)
            * spsOf resolution sampleRate := by
        have h1 : numSegsOf channelData.length (spsOf resolution sampleRate) - 1 + 1
            = numSegsOf channelData.length (spsOf resolution sampleRate) := by omega
        calc (numSegsOf channelData.length (spsOf resolution sampleRate) - 1)
              * spsOf resolution sampleRate + spsOf resolution sampleRate
            = (numSegsOf channelData.length (spsOf resolution sampleRate) - 1 + 1)
              * spsOf resolution sampleRate := by ring
          _ = _ := by rw [h1]
      rw [hmul]
      have hge : channelData.length
          ≤ numSegsOf channelData.length (spsOf resolution sampleRate)
            * spsOf resolution sampleRate :=
        numSegsOf_mul_ge channelData.length (spsOf resolution sampleRate) hsps
      have hmin : ((channelData.length : ℚ)) / sampleRate
          ≤ ((numSegsOf channelData.length (spsOf resolution sampleRate)
              * spsOf resolution sampleRate : ℕ) : ℚ) / sampleRate := by
        apply (div_le_div_iff_of_pos_right hrate).mpr
        exact_mod_cast hge
      rw [min_eq_right hmin]
      rfl
  · -- contiguity and width of non-final segments
    intro k hk
    rw [hlen] at hk
    have hlt : (k + 1) * spsOf resolution sampleRate < channelData.length :=
      (lt_numSegsOf_iff channelData.length (spsOf resolution sampleRate) (k + 1) hsps).mp hk
    have hle : k * spsOf resolution sampleRate + spsOf resolution sampleRate
        ≤ channelData.length := by
      have h2 : (k + 1) * spsOf resolution sampleRate
          = k * spsOf resolution sampleRate + spsOf resolution sampleRate := by ring
      omega
    have hmin : min (((k * spsOf resolution sampleRate + spsOf resolution sampleRate : ℕ)
            : ℚ) / sampleRate) ((channelData.length : ℚ) / sampleRate)
        = ((k * spsOf resolution sampleRate + spsOf resolution sampleRate : ℕ) : ℚ)
            / sampleRate := by
      apply min_eq_left
      apply (div_le_div_iff_of_pos_right hrate).mpr
      exact_mod_cast hle
    constructor
    · rw [analyzeWaveform_getD channelData sampleRate resolution (k + 1) (by omega),
        analyzeWaveform_getD channelData sampleRate resolution k (by omega),
        segAt_startTime, segAt_endTime, hmin]
      congr 1
      push_cast
      ring
    · rw [analyzeWaveform_getD channelData sampleRate resolution k (by omega),
        segAt_startTime, segAt_endTime, hmin, div_sub_div_same]
      congr 1
      push_cast
      ring
  · -- the width equals the nominal resolution in the exact case
    intro hexact
    rw [← hexact, mul_div_assoc, div_self hne, mul_one]

/-- Claim C5, counterexample to the claim as stated: two samples at
3 Hz analyzed at 500 ms resolution give `samplesPerSegment =
floor(1.5) = 1`, so the first (non-final) segment spans `1/3` s — not
the 500 ms analysis resolution. -/
theorem claim_C5_counterexample :
    0 + 1 < (analyzeWaveform [(0 : ℝ), 0] 3 500).segments.length ∧
    ((analyzeWaveform [(0 : ℝ), 0] 3 500).segments.getD 0 default).endTime
      - ((analyzeWaveform [(0 : ℝ), 0] 3 500).segments.getD 0 default).startTime
      = 1 / 3 ∧
    ((1 : ℚ) / 3 ≠ 500 / 1000) ∧ ((1 : ℚ) / 3 ≠ 500) := by
  have hfloor : ⌊(500 / 1000 : ℚ) * 3⌋ = 1 := by norm_num
  have hsps : spsOf 500 3 = 1 := by
    rw [spsOf, samplesPerSegment, hfloor]
    rfl
  have hm : numSegsOf ([(0 : ℝ), 0]).length (spsOf 500 3) = 2 := by
    rw [hsps]
    rfl
  have hlen : (analyzeWaveform [(0 : ℝ), 0] 3 500).segments.length = 2 := by
    rw [analyzeWaveform_length, hm]
  have hget : (analyzeWaveform [(0 : ℝ), 0] 3 500).segments.getD 0 default
      = segAt [(0 : ℝ), 0] 3 (spsOf 500 3) 0 :=
    analyzeWaveform_getD _ _ _ 0 (by rw [hm]; omega)
  refine ⟨by omega, ?_, by norm_num, by norm_num⟩
  rw [hget, segAt_endTime, segAt_startTime, hsps]
  norm_num [min_def]

/-- Witness for the amended C5 at three zero samples, 1 Hz, 2000 ms
resolution (`samplesPerSegment = 2`, two segments). -/
theorem claim_C5_witness :
    (0 : ℚ) < 1 ∧ 1 ≤ spsOf 2000 1 ∧
    (((analyzeWaveform [(0 : ℝ), 0, 0] 1 2000).segments = [] ↔
      ([(0 : ℝ), 0, 0] : List ℝ) = []) ∧
    (([(0 : ℝ), 0, 0] : List ℝ) ≠ [] →
      (((analyzeWaveform [(0 : ℝ), 0, 0] 1 2000).segments.getD 0
        default).startTime = 0 ∧
      ((analyzeWaveform [(0 : ℝ), 0, 0] 1 2000).segments.getLastD
        default).endTime = (analyzeWaveform [(0 : ℝ), 0, 0] 1 2000).duration)) ∧
    (∀ k, k + 1 < (analyzeWaveform [(0 : ℝ), 0, 0] 1 2000).segments.length →
      (((analyzeWaveform [(0 : ℝ), 0, 0] 1 2000).segments.getD (k + 1)
        default).startTime
        = ((analyzeWaveform [(0 : ℝ), 0, 0] 1 2000).segments.getD k
            default).endTime ∧
      ((analyzeWaveform [(0 : ℝ), 0, 0] 1 2000).segments.getD k
          default).endTime
        - ((analyzeWaveform [(0 : ℝ), 0, 0] 1 2000).segments.getD k
            default).startTime
        = ((spsOf 2000 1 : ℕ) : ℚ) / 1)) ∧
    (((2000 : ℚ) / 1000) * 1 = ((spsOf 2000 1 : ℕ) : ℚ) →
      ((spsOf 2000 1 : ℕ) : ℚ) / 1 = (2000 : ℚ) / 1000)) := by
  have hfloor : ⌊(2000 / 1000 : ℚ) * 1⌋ = 2 := by norm_num
  have hsps : spsOf 2000 1 = 2 := by
    rw [spsOf, samplesPerSegment, hfloor]
    rfl
  exact ⟨by norm_num, by rw [hsps]; omega, claim_C5_partition_amended [(0 : ℝ), 0, 0] 1 2000
    (by norm_num) (by rw [hsps]; omega)⟩

end Transcribe
